import Mathlib

/-!
# Verification of the hacklab-status-screen tab/activity controller

Shallow embedding of the tab-navigation and activity logic of
`src/output.rs` and `src/input.rs` (Browser::change_tab, Browser::autoscroll,
Browser::tab_content, Browser::pause/unpause/hold, Browser::new, Konami::add),
with theorems checking the natural-language specification against it.

Tab ids are `Nat` (the Rust code uses `usize`; all arithmetic here stays far
from overflow and every subtraction is guarded exactly as in the source).
`Instant`s are modelled as `Nat` time stamps, `Duration`s as `Nat`.
-/

/-- A primitive navigation command sent to the browser.
`directJump n` is the keystroke Ctrl+n (n in 1..8), `jumpLast` is Ctrl+9
(jump to the last tab), `stepNext` is Ctrl+Tab, `stepPrevious` is
Ctrl+Shift+Tab. -/
inductive Cmd where
  | directJump : Nat → Cmd
  | jumpLast : Cmd
  | stepNext : Cmd
  | stepPrevious : Cmd
deriving DecidableEq

/-- `Browser::FIRST_TAB` in `src/output.rs`. -/
def FIRST_TAB : Nat := 1

/-- `DIRECT_TABS` in `Browser::change_tab` (`src/output.rs`). -/
def DIRECT_TABS : Nat := 8

/-- `Browser::next_tab_id` (`src/output.rs`): step forward, wrapping from the
last tab to tab 1. -/
def nextTabId (last tab : Nat) : Nat :=
  if tab = last then FIRST_TAB else tab + 1

/-- `Browser::previous_tab_id` (`src/output.rs`): step backward, wrapping from
tab 1 to the last tab. -/
def previousTabId (last tab : Nat) : Nat :=
  if tab = FIRST_TAB then last else tab - 1

/-- Effect of one primitive command on the current tab position, with `last`
the number of tabs.  `stepNext`/`stepPrevious` wrap exactly like
`next_tab_id`/`previous_tab_id`. -/
def Cmd.exec (last pos : Nat) : Cmd → Nat
  | .directJump n => n
  | .jumpLast => last
  | .stepNext => if pos = last then FIRST_TAB else pos + 1
  | .stepPrevious => if pos = FIRST_TAB then last else pos - 1

/-- Run a command sequence from a starting position. -/
def simulate (last pos : Nat) : List Cmd → Nat
  | [] => pos
  | c :: cs => simulate last (c.exec last pos) cs

/-- A command the physical keyboard can express: direct jumps exist only for
tabs 1..`DIRECT_TABS` (the spec data model: `DirectJump(n)` with
`n ≤ direct limit`). -/
def Cmd.valid : Cmd → Prop
  | .directJump n => 1 ≤ n ∧ n ≤ DIRECT_TABS
  | .jumpLast => True
  | .stepNext => True
  | .stepPrevious => True

instance (c : Cmd) : Decidable c.valid := by
  cases c <;> simp only [Cmd.valid] <;> infer_instance

/-- `Browser::change_tab` (`src/output.rs`, lines 305-367), restricted to the
key sequence it presses.  Returns `none` on the `panic!` branch (invalid
target), otherwise the ordered list of primitive commands dispatched.
`Ctrl+n` is `directJump n`, `KEY_LAST_TAB` (Ctrl+9) is `jumpLast`,
`KEY_NEXT_TAB` is `stepNext`, `KEY_PREVIOUS_TAB` is `stepPrevious`;
`keys.resize(k, v)` on a one-element vector appends `k - 1` copies of `v`. -/
def changeTabKeys (last current tab : Nat) : Option (List Cmd) :=
  if tab = current then some []
  else if FIRST_TAB ≤ tab ∧ tab ≤ DIRECT_TABS then some [.directJump tab]
  else if tab = last then some [.jumpLast]
  else if tab = nextTabId last current then some [.stepNext]
  else if tab = previousTabId last current then some [.stepPrevious]
  else if DIRECT_TABS + 1 ≤ tab ∧ tab < last then
    let keysFromCurrentTab := if tab < current then current - tab else tab - current
    let keyFromCurrentTab := if tab < current then Cmd.stepPrevious else Cmd.stepNext
    let keysFromLastDirectTab := 1 + (tab - DIRECT_TABS)
    let keysFromLastTab := 1 + (last - tab)
    if keysFromCurrentTab ≤ min keysFromLastDirectTab keysFromLastTab then
      some (List.replicate keysFromCurrentTab keyFromCurrentTab)
    else if keysFromLastDirectTab ≤ keysFromLastTab then
      some (Cmd.directJump DIRECT_TABS :: List.replicate (keysFromLastDirectTab - 1) Cmd.stepNext)
    else
      some (Cmd.jumpLast :: List.replicate (keysFromLastTab - 1) Cmd.stepPrevious)
  else none

/-- Linear (non-wraparound) step distance between two tabs, as computed by the
indirect branch of `change_tab`. -/
def stepDist (t c : Nat) : Nat := if t < c then c - t else t - c

/-- Number of primitive commands `change_tab` dispatches for a valid target:
0 when already there, 1 for direct / last / adjacent targets, and for indirect
targets the minimum of the three candidate costs with the code's tie-break. -/
def routeCost (last t c : Nat) : Nat :=
  if c = t then 0
  else if 1 ≤ t ∧ t ≤ DIRECT_TABS then 1
  else if t = last then 1
  else
    if stepDist t c ≤ 1 + (t - DIRECT_TABS) ∧ stepDist t c ≤ 1 + (last - t) then stepDist t c
    else if 1 + (t - DIRECT_TABS) ≤ 1 + (last - t) then 1 + (t - DIRECT_TABS)
    else 1 + (last - t)

theorem simulate_replicate_next (last : Nat) :
    ∀ (k c : Nat), c + k ≤ last → simulate last c (List.replicate k Cmd.stepNext) = c + k := by
  intro k
  induction k with
  | zero => intro c _; simp [simulate]
  | succ n ih =>
      intro c h
      rw [List.replicate_succ]
      simp only [simulate, Cmd.exec]
      rw [if_neg (by omega : ¬ c = last)]
      rw [ih (c + 1) (by omega)]
      omega

theorem simulate_replicate_prev (last : Nat) :
    ∀ (k c : Nat), k < c → simulate last c (List.replicate k Cmd.stepPrevious) = c - k := by
  intro k
  induction k with
  | zero => intro c _; simp [simulate]
  | succ n ih =>
      intro c h
      rw [List.replicate_succ]
      simp only [simulate, Cmd.exec]
      rw [if_neg (by simp only [FIRST_TAB]; omega : ¬ c = FIRST_TAB)]
      rw [ih (c - 1) (by omega)]
      omega

theorem exec_range (last c : Nat) (x : Cmd) (h9 : 9 ≤ last) (hc1 : 1 ≤ c) (hc2 : c ≤ last)
    (hv : x.valid) : 1 ≤ x.exec last c ∧ x.exec last c ≤ last := by
  cases x with
  | directJump n =>
      obtain ⟨h1, h2⟩ := hv
      simp only [Cmd.exec, DIRECT_TABS] at *
      omega
  | jumpLast => simp only [Cmd.exec]; omega
  | stepNext =>
      simp only [Cmd.exec, FIRST_TAB]
      split <;> omega
  | stepPrevious =>
      simp only [Cmd.exec, FIRST_TAB]
      split <;> omega

set_option maxHeartbeats 2000000 in
theorem routeCost_step (last t c : Nat) (x : Cmd) (h9 : 9 ≤ last)
    (ht1 : 1 ≤ t) (ht2 : t ≤ last) (hc1 : 1 ≤ c) (hc2 : c ≤ last) (hv : x.valid) :
    routeCost last t c ≤ 1 + routeCost last t (x.exec last c) := by
  cases x with
  | directJump n =>
      obtain ⟨h1, h2⟩ := hv
      simp only [Cmd.exec, routeCost, stepDist, DIRECT_TABS] at *
      split_ifs <;> omega
  | jumpLast =>
      simp only [Cmd.exec, routeCost, stepDist, DIRECT_TABS]
      split_ifs <;> omega
  | stepNext =>
      simp only [Cmd.exec, routeCost, stepDist, DIRECT_TABS, FIRST_TAB]
      split_ifs <;> omega
  | stepPrevious =>
      simp only [Cmd.exec, routeCost, stepDist, DIRECT_TABS, FIRST_TAB]
      split_ifs <;> omega

theorem routeCost_lower_bound (last t : Nat) :
    ∀ (seq : List Cmd) (c : Nat), 9 ≤ last → 1 ≤ t → t ≤ last → 1 ≤ c → c ≤ last →
      (∀ x ∈ seq, x.valid) → simulate last c seq = t → routeCost last t c ≤ seq.length := by
  intro seq
  induction seq with
  | nil =>
      intro c _ _ _ _ _ _ hsim
      simp only [simulate] at hsim
      subst hsim
      simp [routeCost]
  | cons x xs ih =>
      intro c h9 ht1 ht2 hc1 hc2 hv hsim
      have hx : x.valid := hv x (List.mem_cons_self x xs)
      have hrange := exec_range last c x h9 hc1 hc2 hx
      have h1 := ih (x.exec last c) h9 ht1 ht2 hrange.1 hrange.2
        (fun y hy => hv y (List.mem_cons_of_mem x hy)) hsim
      have h2 := routeCost_step last t c x h9 ht1 ht2 hc1 hc2 hx
      simp only [List.length_cons]
      omega

set_option maxHeartbeats 4000000 in
theorem changeTabKeys_some (last c t : Nat) (h9 : 9 ≤ last) (hc1 : 1 ≤ c) (hc2 : c ≤ last)
    (ht1 : 1 ≤ t) (ht2 : t ≤ last) :
    ∃ r, changeTabKeys last c t = some r ∧ simulate last c r = t ∧
      r.length = routeCost last t c := by
  simp only [changeTabKeys, FIRST_TAB, DIRECT_TABS, nextTabId, previousTabId]
  split_ifs with h1 h2 h3 h4 h5 h6 h7 h8 h9' h10 h11 h12 h13 h14 h15 h16 h17 h18 <;>
    first
    | (refine ⟨[], rfl, ?_, ?_⟩ <;>
        simp only [simulate, List.length_nil, routeCost] <;>
        (try split_ifs) <;> omega)
    | (refine ⟨[Cmd.directJump t], rfl, ?_, ?_⟩ <;>
        simp only [simulate, Cmd.exec, List.length_singleton, routeCost, stepDist,
          DIRECT_TABS] <;> (try split_ifs) <;> omega)
    | (refine ⟨[Cmd.jumpLast], rfl, ?_, ?_⟩ <;>
        simp only [simulate, Cmd.exec, List.length_singleton, routeCost, stepDist,
          DIRECT_TABS] <;> (try split_ifs) <;> omega)
    | (refine ⟨[Cmd.stepNext], rfl, ?_, ?_⟩ <;>
        simp only [simulate, Cmd.exec, FIRST_TAB, List.length_singleton, routeCost, stepDist,
          DIRECT_TABS] <;> (try split_ifs) <;> omega)
    | (refine ⟨[Cmd.stepPrevious], rfl, ?_, ?_⟩ <;>
        simp only [simulate, Cmd.exec, FIRST_TAB, List.length_singleton, routeCost, stepDist,
          DIRECT_TABS] <;> (try split_ifs) <;> omega)
    | (refine ⟨List.replicate (c - t) Cmd.stepPrevious, rfl, ?_, ?_⟩
       case _ =>
         rw [simulate_replicate_prev last (c - t) c (by omega)]
         omega
       case _ =>
         simp only [List.length_replicate, routeCost, stepDist, DIRECT_TABS]
         (try split_ifs) <;> omega)
    | (refine ⟨List.replicate (t - c) Cmd.stepNext, rfl, ?_, ?_⟩
       case _ =>
         rw [simulate_replicate_next last (t - c) c (by omega)]
         omega
       case _ =>
         simp only [List.length_replicate, routeCost, stepDist, DIRECT_TABS]
         (try split_ifs) <;> omega)
    | (refine ⟨Cmd.directJump 8 :: List.replicate (1 + (t - 8) - 1) Cmd.stepNext, rfl, ?_, ?_⟩
       case _ =>
         simp only [simulate, Cmd.exec]
         rw [simulate_replicate_next last (1 + (t - 8) - 1) 8 (by omega)]
         omega
       case _ =>
         simp only [List.length_cons, List.length_replicate, routeCost, stepDist, DIRECT_TABS]
         (try split_ifs) <;> omega)
    | (refine ⟨Cmd.jumpLast :: List.replicate (1 + (last - t) - 1) Cmd.stepPrevious, rfl, ?_, ?_⟩
       case _ =>
         simp only [simulate, Cmd.exec]
         rw [simulate_replicate_prev last (1 + (last - t) - 1) last (by omega)]
         omega
       case _ =>
         simp only [List.length_cons, List.length_replicate, routeCost, stepDist, DIRECT_TABS]
         (try split_ifs) <;> omega)
    | (exact absurd rfl (by omega))
    | omega

/-- C1: for every tab count N ≥ 9 (direct limit 8) and all current, target in
[1, N], `change_tab` succeeds and the command sequence it dispatches, simulated
command by command from `current` (direct jumps go to their tab, `jumpLast`
goes to N, steps wrap around), ends exactly at `target`; its length is less
than or equal to the length of every sequence of the four primitive commands
(direct jumps limited to tabs 1..8) that ends at `target`. -/
theorem change_tab_reaches_target_minimally (last c t : Nat) (h9 : 9 ≤ last)
    (hc1 : 1 ≤ c) (hc2 : c ≤ last) (ht1 : 1 ≤ t) (ht2 : t ≤ last) :
    ∃ r, changeTabKeys last c t = some r ∧ simulate last c r = t ∧
      ∀ seq : List Cmd, (∀ x ∈ seq, x.valid) → simulate last c seq = t →
        r.length ≤ seq.length := by
  obtain ⟨r, hr, hsim, hlen⟩ := changeTabKeys_some last c t h9 hc1 hc2 ht1 ht2
  refine ⟨r, hr, hsim, fun seq hv hs => ?_⟩
  rw [hlen]
  exact routeCost_lower_bound last t seq c h9 ht1 ht2 hc1 hc2 hv hs

theorem change_tab_reaches_target_minimally_witness :
    ∃ r, changeTabKeys 12 3 10 = some r ∧ simulate 12 3 r = 10 ∧
      ∀ seq : List Cmd, (∀ x ∈ seq, x.valid) → simulate 12 3 seq = 10 →
        r.length ≤ seq.length :=
  change_tab_reaches_target_minimally 12 3 10 (by norm_num) (by norm_num) (by norm_num)
    (by norm_num) (by norm_num)

/-- Route chooser following the claim's words, for comparison with the code:
candidate (1) steps from `current` using the wraparound-aware distance (the
minimum of forward and backward step counts around the cycle), candidate (2)
jumps to tab 8 then steps forward costing 1 + (target - 8), candidate (3)
jumps to the last tab then steps backward costing 1 + (N - target); the
minimum cost wins and exact ties prefer (1) over (2) over (3). -/
def claimedChooser (last current tab : Nat) : List Cmd :=
  let fwd := if current ≤ tab then tab - current else last - current + tab
  let bwd := if tab ≤ current then current - tab else current + (last - tab)
  let cand1 := if bwd < fwd then List.replicate bwd Cmd.stepPrevious
               else List.replicate fwd Cmd.stepNext
  let cost1 := min fwd bwd
  let cost2 := 1 + (tab - DIRECT_TABS)
  let cost3 := 1 + (last - tab)
  if cost1 ≤ cost2 ∧ cost1 ≤ cost3 then cand1
  else if cost2 ≤ cost3 then
    Cmd.directJump DIRECT_TABS :: List.replicate (tab - DIRECT_TABS) Cmd.stepNext
  else Cmd.jumpLast :: List.replicate (last - tab) Cmd.stepPrevious

/-- C4 counterexample: at N = 12, current = 1, target = 10 (an indirect,
non-adjacent target) the wraparound-aware backward distance is 3, tying all
three candidates, so the claimed chooser picks candidate (1) (three backward
steps); the code instead measures candidate (1) with the linear distance 9 and
picks candidate (2). -/
theorem change_tab_not_wraparound_chooser :
    changeTabKeys 12 1 10 = some [Cmd.directJump 8, Cmd.stepNext, Cmd.stepNext] ∧
    claimedChooser 12 1 10 = [Cmd.stepPrevious, Cmd.stepPrevious, Cmd.stepPrevious] ∧
    changeTabKeys 12 1 10 ≠ some (claimedChooser 12 1 10) := by decide

/-- Route chooser with candidate (1) measured by the linear (non-wraparound)
distance between current and target, candidates and tie-break as the claim
states them otherwise. -/
def linearChooser (last current tab : Nat) : List Cmd :=
  let dist1 := if tab < current then current - tab else tab - current
  let stepKey := if tab < current then Cmd.stepPrevious else Cmd.stepNext
  let cand1 := List.replicate dist1 stepKey
  let cand2 := Cmd.directJump DIRECT_TABS :: List.replicate (tab - DIRECT_TABS) Cmd.stepNext
  let cand3 := Cmd.jumpLast :: List.replicate (last - tab) Cmd.stepPrevious
  if cand1.length ≤ cand2.length ∧ cand1.length ≤ cand3.length then cand1
  else if cand2.length ≤ cand3.length then cand2
  else cand3

/-- C4 amended: for every indirect target (strictly between 8 and the last
tab, not the current tab and not adjacent to it) the code's route equals the
three-candidate chooser whose candidate (1) cost is the linear distance
|current - target| (not the wraparound-aware one), with minimum cost winning
and exact ties preferring (1) over (2) over (3). -/
theorem change_tab_linear_chooser (last c t : Nat) (h9 : 9 ≤ last)
    (hc1 : 1 ≤ c) (hc2 : c ≤ last) (hind1 : DIRECT_TABS < t) (hind2 : t < last)
    (hne : t ≠ c) (hnext : t ≠ nextTabId last c) (hprev : t ≠ previousTabId last c) :
    changeTabKeys last c t = some (linearChooser last c t) := by
  have hnext2 : t ≠ c + 1 := by
    intro h
    apply hnext
    rw [nextTabId, if_neg (by simp only [DIRECT_TABS] at hind1; omega : ¬ c = last)]
    omega
  have hprev2 : ¬(2 ≤ c ∧ t + 1 = c) := by
    rintro ⟨hge, heq⟩
    apply hprev
    rw [previousTabId, if_neg (by simp only [FIRST_TAB]; omega : ¬ c = FIRST_TAB)]
    omega
  simp only [changeTabKeys, linearChooser, DIRECT_TABS, FIRST_TAB, nextTabId, previousTabId,
    List.length_replicate, List.length_cons, Nat.add_sub_cancel_left] at *
  split_ifs <;> first | rfl | omega | (exfalso; omega)

theorem change_tab_linear_chooser_witness :
    changeTabKeys 12 3 10 = some (linearChooser 12 3 10) :=
  change_tab_linear_chooser 12 3 10 (by norm_num) (by norm_num) (by norm_num) (by decide)
    (by decide) (by decide) (by decide) (by decide)

/-- C5 counterexample: with one configured tab (N = 1, current = 1) routing to
target N + 1 = 2 does not fail: the direct-tab branch dispatches Ctrl+2. -/
theorem change_tab_small_n_overflow_dispatches :
    changeTabKeys 1 1 2 = some [Cmd.directJump 2] ∧ changeTabKeys 1 1 2 ≠ none := by decide

set_option maxHeartbeats 1000000 in
/-- C5 amended: routing to target 0 fails for every N ≥ 1 and current in
[1, N]; routing to target N + 1 fails whenever N ≥ 8 (for N < 8 the code
instead dispatches the direct jump to the nonexistent tab N + 1). -/
theorem change_tab_invalid_target_fails (last c : Nat) (hN : 1 ≤ last)
    (hc1 : 1 ≤ c) (hc2 : c ≤ last) :
    changeTabKeys last c 0 = none ∧
      (8 ≤ last → changeTabKeys last c (last + 1) = none) := by
  constructor
  · simp only [changeTabKeys, FIRST_TAB, DIRECT_TABS, nextTabId, previousTabId]
    split_ifs <;> first | rfl | omega | contradiction | (exfalso; omega)
  · intro h8
    simp only [changeTabKeys, FIRST_TAB, DIRECT_TABS, nextTabId, previousTabId]
    split_ifs <;> first | rfl | omega | contradiction | (exfalso; omega)

theorem change_tab_invalid_target_fails_witness :
    changeTabKeys 9 1 0 = none ∧ changeTabKeys 9 1 10 = none :=
  ⟨(change_tab_invalid_target_fails 9 1 (by norm_num) (by norm_num) (by norm_num)).1,
   (change_tab_invalid_target_fails 9 1 (by norm_num) (by norm_num) (by norm_num)).2
     (by norm_num)⟩

/-- `Konami::KONAMI_CODE` (`src/input.rs`). -/
def KONAMI_CODE : List Char := ['U', 'U', 'D', 'D', 'L', 'R', 'L', 'R', 'B', 'A', 'S']

/-- `Konami::add` (`src/input.rs`, lines 300-325): push the key onto the
trailing window, truncate to the code length from the front, and compare with
the corresponding prefix of the code; on a full match clear the window and
report `some true` (code entered), on a proper prefix report `none` (in
progress), otherwise keep only the newest symbol and report `some false`. -/
def konamiAdd (history : List Char) (key : Char) : List Char × Option Bool :=
  let history := history ++ [key]
  let history := history.drop (history.length - KONAMI_CODE.length)
  if history = KONAMI_CODE.take history.length then
    if history.length = KONAMI_CODE.length then ([], some true)
    else (history, none)
  else
    (history.drop (history.length - 1), some false)

/-- Feed a list of keys starting from a given window; the final window and
the result of the last `add`. -/
def konamiFeed (history : List Char) (keys : List Char) : List Char × Option Bool :=
  keys.foldl (fun acc k => konamiAdd acc.1 k) (history, none)

/-- C8: feeding the secret-code symbols in exact order from an empty window
yields the in-progress result (`none`) for every symbol before the last, and
on the last symbol yields `some true` with the window cleared. -/
theorem konami_exact_code_matches :
    (∀ k, k < 10 → (konamiFeed [] (KONAMI_CODE.take (k + 1))).2 = none) ∧
    konamiFeed [] KONAMI_CODE = ([], some true) := by
  constructor
  · decide
  · decide

theorem konami_exact_code_matches_witness :
    (konamiFeed [] (KONAMI_CODE.take 4)).2 = none :=
  konami_exact_code_matches.1 3 (by norm_num)

/-- `Vec::resize_with(n, default)`: truncate to `n` elements or extend with
the default up to `n` elements. -/
def resizeWith {α : Type} (l : List α) (n : Nat) (d : α) : List α :=
  l.take n ++ List.replicate (n - l.length) d

theorem length_resizeWith {α : Type} (l : List α) (n : Nat) (d : α) :
    (resizeWith l n d).length = n := by
  simp only [resizeWith, List.length_append, List.length_take, List.length_replicate]
  omega

theorem resizeWith_self {α : Type} (l : List α) (n : Nat) (d : α) (h : l.length = n) :
    resizeWith l n d = l := by
  subst h
  simp [resizeWith]

theorem getD_set_self {α : Type} : ∀ (l : List α) (i : Nat) (a d : α), i < l.length →
    (l.set i a).getD i d = a := by
  intro l
  induction l with
  | nil => intro i a d h; simp at h
  | cons x t ih =>
      intro i a d h
      cases i with
      | zero => rfl
      | succ n =>
          simp only [List.set_cons_succ, List.getD_cons_succ]
          exact ih n a d (by simpa using h)

/-- `Browser::tab_content` (`src/output.rs`, lines 369-405), with the capture
result (`Eyes::see`), the clock and the stored state passed explicitly:
`pages` lists each tab's optional reload threshold (`Page::reload`),
`tabCount` the number of tabs, `content` is `BrowserState::content`.  Returns
the function's return value together with the updated `content`.  When the
capture fails nothing happens; otherwise the stored entry for the current tab
is reset to the new fingerprint when it differs or has no timestamp, and the
elapsed time is compared to the reload threshold when one is configured
(clearing the timestamp when the reload fires); without a configured
threshold the returned pair is the `Default` value (0, false). -/
def tabContent (pages : List (Option Nat)) (tabCount tab now : Nat)
    (see : Option String) (content : List (String × Option Nat)) :
    Option (Nat × Bool) × List (String × Option Nat) :=
  match see with
  | none => (none, content)
  | some c =>
    let resized := resizeWith content tabCount ("", none)
    let tabState := resized.getD (tab - FIRST_TAB) ("", none)
    let tabState := if tabState.1 ≠ c ∨ tabState.2 = none then (c, some now) else tabState
    match tabState.2, pages.getD (tab - FIRST_TAB) none with
    | some lastChange, some reload =>
        if reload ≤ now - lastChange then
          (some (now - lastChange, true), resized.set (tab - FIRST_TAB) (tabState.1, none))
        else
          (some (now - lastChange, false), resized.set (tab - FIRST_TAB) tabState)
    | some _, none => (some (0, false), resized.set (tab - FIRST_TAB) tabState)
    | none, _ => (some (0, false), resized.set (tab - FIRST_TAB) tabState)

/-- C3 counterexample: on a first observation (no stored content) with a
successful capture, `tab_content` does not return `None` as the claim states:
it stores the fingerprint and returns `some (0, false)`. -/
theorem tab_content_first_observation_not_none :
    tabContent [none] 1 1 5 (some ("h")) [] = (some (0, false), [(("h"), some 5)]) ∧
    (tabContent [none] 1 1 5 (some ("h")) []).1 ≠ none := by
  constructor <;> decide

/-- C3 amended: `tab_content` returns `none` exactly on capture failure;
given a successful capture it always returns `some`: when the stored
fingerprint for the current tab differs from the captured one (or has no
timestamp) it stores the new fingerprint with the current time and returns
elapsed time 0, and on the following call with the same fingerprint (reload
threshold not yet reached) it returns the positive elapsed time since the
reset. -/
theorem tab_content_reset_and_elapsed (pages : List (Option Nat))
    (tabCount tab now1 now2 r : Nat) (fp : String)
    (content : List (String × Option Nat))
    (h1 : 1 ≤ tab) (h2 : tab ≤ tabCount)
    (hpage : pages.getD (tab - FIRST_TAB) none = some r)
    (hreset :
      ((resizeWith content tabCount ("", none)).getD (tab - FIRST_TAB) ("", none)).1 ≠ fp
      ∨ ((resizeWith content tabCount ("", none)).getD (tab - FIRST_TAB) ("", none)).2 = none)
    (hnow : now1 < now2) (hr : now2 - now1 < r) :
    (∀ st : List (String × Option Nat),
      tabContent pages tabCount tab now1 none st = (none, st)) ∧
    tabContent pages tabCount tab now1 (some fp) content =
      (some (0, false),
        (resizeWith content tabCount ("", none)).set (tab - FIRST_TAB) (fp, some now1)) ∧
    (tabContent pages tabCount tab now2 (some fp)
        ((resizeWith content tabCount ("", none)).set (tab - FIRST_TAB) (fp, some now1))).1 =
      some (now2 - now1, false) ∧
    0 < now2 - now1 := by
  have hr0 : 0 < r := by omega
  refine ⟨fun st => rfl, ?_, ?_, by omega⟩
  · simp only [tabContent]
    rw [if_pos hreset, hpage]
    dsimp only
    rw [if_neg (by omega : ¬ r ≤ now1 - now1)]
    simp [Nat.sub_self]
  · have hlen : ((resizeWith content tabCount (("", none) : String × Option Nat)).set
        (tab - FIRST_TAB) (fp, some now1)).length = tabCount := by
      rw [List.length_set, length_resizeWith]
    have hget : ((resizeWith content tabCount (("", none) : String × Option Nat)).set
        (tab - FIRST_TAB) (fp, some now1)).getD (tab - FIRST_TAB) ("", none) =
        (fp, some now1) :=
      getD_set_self _ _ _ _ (by rw [length_resizeWith]; simp only [FIRST_TAB]; omega)
    simp only [tabContent]
    rw [resizeWith_self _ _ _ hlen, hget]
    rw [if_neg (by simp)]
    rw [hpage]
    dsimp only
    rw [if_neg (by omega : ¬ r ≤ now2 - now1)]

theorem tab_content_reset_and_elapsed_witness :
    tabContent [some 10] 1 1 3 (some ("h")) [] =
      (some (0, false), [(("h"), some 3)]) ∧
    (tabContent [some 10] 1 1 5 (some ("h")) [(("h"), some 3)]).1 = some (2, false) := by
  have h := tab_content_reset_and_elapsed [some 10] 1 1 3 5 10 ("h") []
    (by norm_num) (by norm_num) (by decide) (by decide) (by norm_num) (by norm_num)
  exact ⟨h.2.1, h.2.2.1⟩

/-- Autoscroll timing configuration: `Config::autoscroll_delay`,
the hold duration read by `Browser::autoscroll`, and
`Config::autoscroll_pause` (defaults 20, -, 900 seconds). -/
structure AutoscrollConfig where
  delay : Nat
  hold : Nat
  pause : Nat

/-- The state one pass of the `Browser::autoscroll` loop
(`src/output.rs`, lines 140-180) reads and writes: the current tab,
`BrowserState::changed` (last activity), the two suppression flags and the
loop-local startup `multiplier`. -/
structure LoopState where
  tab : Nat
  changed : Nat
  held : Bool
  paused : Bool
  multiplier : Nat
deriving DecidableEq

/-- The deadline (`next`) computed at the top of each `autoscroll` pass:
`changed` plus the pause duration when paused, the hold duration when held
(and not paused), else the delay times the startup multiplier. -/
def autoscrollDeadline (cfg : AutoscrollConfig) (s : LoopState) : Nat :=
  s.changed +
    (if s.paused then cfg.pause else if s.held then cfg.hold
     else cfg.delay * s.multiplier)

/-- One evaluation of the `autoscroll` loop body at time `now`: before the
deadline the loop sleeps again (state unchanged, multiplier kept); otherwise
it sets the multiplier to 1, unpauses, moves to the next tab and records
activity. -/
def autoscrollEval (cfg : AutoscrollConfig) (last : Nat) (s : LoopState) (now : Nat) :
    LoopState :=
  if now < autoscrollDeadline cfg s then s
  else
    { tab := nextTabId last s.tab, changed := now, held := false, paused := false,
      multiplier := 1 }

/-- Run the autoscroll loop over a list of evaluation times. -/
def autoscrollRun (cfg : AutoscrollConfig) (last : Nat) : LoopState → List Nat → LoopState
  | s, [] => s
  | s, t :: ts => autoscrollRun cfg last (autoscrollEval cfg last s t) ts

/-- Every evaluation at the given times happens before the deadline of the
state it observes (so each pass only sleeps). -/
def allBeforeDeadline (cfg : AutoscrollConfig) (s : LoopState) : List Nat → Bool
  | [] => true
  | t :: ts => if t < autoscrollDeadline cfg s then allBeforeDeadline cfg s ts else false

/-- C2 counterexample: a paused state whose pause deadline (here
changed + 900) has passed: the autoscroll pass advances the tab, unpausing by
itself with no deliberate user navigation. -/
theorem paused_autoscroll_advances :
    (⟨1, 0, false, true, 2⟩ : LoopState).paused = true ∧
    autoscrollEval ⟨20, 60, 900⟩ 10 ⟨1, 0, false, true, 2⟩ 900 =
      ⟨2, 900, false, false, 1⟩ ∧
    (autoscrollEval ⟨20, 60, 900⟩ 10 ⟨1, 0, false, true, 2⟩ 900).tab ≠
      (⟨1, 0, false, true, 2⟩ : LoopState).tab := by
  refine ⟨rfl, by decide, by decide⟩

/-- C2 amended: while `paused` is set the autoscroll loop performs no tab
change only as long as the time is before `changed + pause_duration`; an
evaluation at or after that deadline advances to the next tab and clears
`paused` itself, with no explicit unpause by user navigation. -/
theorem paused_suppresses_until_deadline (cfg : AutoscrollConfig) (last : Nat)
    (s : LoopState) (now : Nat) (hp : s.paused = true) :
    (now < s.changed + cfg.pause → autoscrollEval cfg last s now = s) ∧
    (s.changed + cfg.pause ≤ now →
      (autoscrollEval cfg last s now).tab = nextTabId last s.tab ∧
      (autoscrollEval cfg last s now).paused = false) := by
  have hd : autoscrollDeadline cfg s = s.changed + cfg.pause := by
    simp [autoscrollDeadline, hp]
  constructor
  · intro h
    simp only [autoscrollEval, hd]
    rw [if_pos h]
  · intro h
    simp only [autoscrollEval, hd]
    rw [if_neg (by omega)]
    exact ⟨rfl, rfl⟩

theorem paused_suppresses_until_deadline_witness :
    autoscrollEval ⟨20, 60, 900⟩ 10 ⟨1, 0, false, true, 2⟩ 899 =
      (⟨1, 0, false, true, 2⟩ : LoopState) :=
  (paused_suppresses_until_deadline ⟨20, 60, 900⟩ 10 ⟨1, 0, false, true, 2⟩ 899 rfl).1
    (by norm_num)

/-- C7 counterexample: the first evaluation (at time 5) sleeps because its
deadline (0 + 20 * 2 = 40) has not passed, so the second evaluation still
uses multiplier 2 and computes deadline 40, not the
`changed + delay * 1 = 20` the claim predicts for every evaluation after the
first. -/
theorem multiplier_not_reset_after_first_evaluation :
    (autoscrollEval ⟨20, 60, 900⟩ 10 ⟨1, 0, false, false, 2⟩ 5).multiplier = 2 ∧
    autoscrollDeadline ⟨20, 60, 900⟩
      (autoscrollEval ⟨20, 60, 900⟩ 10 ⟨1, 0, false, false, 2⟩ 5) = 40 := by
  refine ⟨by decide, by decide⟩

theorem autoscrollRun_multiplier_one (cfg : AutoscrollConfig) (last : Nat) :
    ∀ (ts : List Nat) (s : LoopState), s.multiplier = 1 →
      (autoscrollRun cfg last s ts).multiplier = 1 := by
  intro ts
  induction ts with
  | nil => intro s h; exact h
  | cons t ts ih =>
      intro s h
      simp only [autoscrollRun, autoscrollEval]
      split
      · exact ih s h
      · exact ih _ rfl

/-- C7 amended: the deadline equals last_activity + pause_duration when
paused, last_activity + hold_duration when held and not paused, and otherwise
last_activity + delay_duration * multiplier; the multiplier is 2 for every
evaluation up to and including the first one whose deadline has passed, and 1
for every evaluation after that (not merely after the first evaluation). -/
theorem autoscroll_deadline_and_multiplier (cfg : AutoscrollConfig) (last : Nat)
    (s : LoopState) (ts : List Nat) :
    (s.paused = true → autoscrollDeadline cfg s = s.changed + cfg.pause) ∧
    (s.paused = false → s.held = true →
      autoscrollDeadline cfg s = s.changed + cfg.hold) ∧
    (s.paused = false → s.held = false →
      autoscrollDeadline cfg s = s.changed + cfg.delay * s.multiplier) ∧
    (s.multiplier = 2 → (autoscrollRun cfg last s ts).multiplier =
      (if allBeforeDeadline cfg s ts then 2 else 1)) := by
  refine ⟨?_, ?_, ?_, ?_⟩
  · intro hp; simp [autoscrollDeadline, hp]
  · intro hp hh; simp [autoscrollDeadline, hp, hh]
  · intro hp hh; simp [autoscrollDeadline, hp, hh]
  · intro hm
    induction ts with
    | nil => simpa [autoscrollRun, allBeforeDeadline] using hm
    | cons t ts ih =>
        simp only [autoscrollRun, allBeforeDeadline, autoscrollEval]
        by_cases h : t < autoscrollDeadline cfg s
        · simp only [if_pos h]
          exact ih
        · simp only [if_neg h, Bool.false_eq_true, if_false]
          exact autoscrollRun_multiplier_one cfg last ts _ rfl

theorem autoscroll_deadline_and_multiplier_witness :
    autoscrollDeadline ⟨20, 60, 900⟩ ⟨1, 0, false, true, 2⟩ = 900 ∧
    (autoscrollRun ⟨20, 60, 900⟩ 10 ⟨1, 0, false, false, 2⟩ [5, 10]).multiplier = 2 :=
  ⟨(autoscroll_deadline_and_multiplier ⟨20, 60, 900⟩ 10 ⟨1, 0, false, true, 2⟩ []).1 rfl,
   ((autoscroll_deadline_and_multiplier ⟨20, 60, 900⟩ 10 ⟨1, 0, false, false, 2⟩
      [5, 10]).2.2.2 rfl).trans (by decide)⟩

/-- A configured page (`config::Page`): `Browser::new` stores one per
distinct url name; `tab_content` reads its optional reload threshold. -/
structure Page where
  url : String
  reload : Option Nat

/-- Effect of `HashMap::insert` on a key already present: replace its stored
value. -/
def setValue : List (String × Nat) → String → Nat → List (String × Nat)
  | [], _, _ => []
  | (k, v) :: rest, key, value =>
      if k = key then (k, value) :: rest else (k, v) :: setValue rest key value

/-- One step of the url loop in `Browser::new` (`src/output.rs`, lines
85-93): `tabs.insert(name, tabs.len() + 1)` returns the previous value when
the name is already present (then only a warning is logged); only for a fresh
name is the page appended to `pages`. -/
def browserNewStep (acc : List Page × List (String × Nat)) (entry : String × Page) :
    List Page × List (String × Nat) :=
  match acc.2.lookup entry.1 with
  | none => (acc.1 ++ [entry.2], acc.2 ++ [(entry.1, acc.2.length + 1)])
  | some _ => (acc.1, setValue acc.2 entry.1 (acc.2.length + 1))

/-- `Browser::new` (`src/output.rs`, lines 81-105): fold the configured urls
in order into the `pages` list and the name → tab-id table. -/
def browserNew (urls : List (String × Page)) : List Page × List (String × Nat) :=
  urls.foldl browserNewStep ([], [])

/-- The table mapping the i-th listed name (0-based) to id `k + i + 1`. -/
def idTableFrom : Nat → List String → List (String × Nat)
  | _, [] => []
  | k, n :: rest => (n, k + 1) :: idTableFrom (k + 1) rest

theorem idTableFrom_length : ∀ (names : List String) (k : Nat),
    (idTableFrom k names).length = names.length := by
  intro names
  induction names with
  | nil => intro k; rfl
  | cons n rest ih => intro k; simp [idTableFrom, ih]

theorem lookup_append_right {β : Type} (a : String) :
    ∀ (l1 l2 : List (String × β)), l1.lookup a = none →
      (l1 ++ l2).lookup a = l2.lookup a := by
  intro l1
  induction l1 with
  | nil => intro l2 _; rfl
  | cons e rest ih =>
      intro l2 h
      obtain ⟨k, v⟩ := e
      simp only [List.cons_append, List.lookup] at *
      cases heq : (a == k) with
      | true => rw [heq] at h; exact Option.noConfusion h
      | false => rw [heq] at h; exact ih l2 h

theorem idTableFrom_lookup_bounds : ∀ (names : List String) (k : Nat) (a : String) (v : Nat),
    (idTableFrom k names).lookup a = some v → k + 1 ≤ v ∧ v ≤ k + names.length := by
  intro names
  induction names with
  | nil => intro k a v h; cases h
  | cons n rest ih =>
      intro k a v h
      simp only [idTableFrom, List.lookup] at h
      cases heq : (a == n) with
      | true =>
          rw [heq] at h
          injection h with h
          subst h
          simp only [List.length_cons]
          omega
      | false =>
          rw [heq] at h
          have := ih (k + 1) a v h
          simp only [List.length_cons]
          omega

theorem idTableFrom_lookup_get : ∀ (names : List String) (k i : Nat),
    names.Nodup → i < names.length →
    (idTableFrom k names).lookup (names.getD i ("")) = some (k + i + 1) := by
  intro names
  induction names with
  | nil => intro k i _ h; simp at h
  | cons n rest ih =>
      intro k i hnd hi
      obtain ⟨hnotin, hnd2⟩ := List.nodup_cons.mp hnd
      cases i with
      | zero =>
          simp only [idTableFrom, List.getD_cons_zero, List.lookup, beq_self_eq_true]
      | succ j =>
          have hj : j < rest.length := by simpa using hi
          have hmem : rest.getD j ("") ∈ rest := by
            rw [List.getD_eq_getElem rest ("") hj]
            exact List.getElem_mem hj
          have hne : (rest.getD j ("") == n) = false := by
            rw [beq_eq_false_iff_ne]
            intro heq
            exact hnotin (by rw [← heq]; exact hmem)
          simp only [idTableFrom, List.getD_cons_succ, List.lookup, hne]
          have := ih (k + 1) j hnd2 hj
          rw [this]
          congr 1
          omega

theorem browserNew_loop : ∀ (urls : List (String × Page)) (pages0 : List Page)
    (tabs0 : List (String × Nat)),
    (∀ e ∈ urls, tabs0.lookup e.1 = none) → (urls.map Prod.fst).Nodup →
    List.foldl browserNewStep (pages0, tabs0) urls =
      (pages0 ++ urls.map Prod.snd,
       tabs0 ++ idTableFrom tabs0.length (urls.map Prod.fst)) := by
  intro urls
  induction urls with
  | nil => intro pages0 tabs0 _ _; simp [idTableFrom]
  | cons e rest ih =>
      intro pages0 tabs0 hfresh hnd
      simp only [List.map_cons, List.nodup_cons] at hnd
      obtain ⟨hnotin, hnd2⟩ := hnd
      have he : tabs0.lookup e.1 = none := hfresh e (List.mem_cons_self e rest)
      simp only [List.foldl_cons, browserNewStep, he]
      rw [ih (pages0 ++ [e.2]) (tabs0 ++ [(e.1, tabs0.length + 1)]) ?_ ?_]
      · simp only [List.map_cons, idTableFrom, List.append_assoc, List.singleton_append,
          List.length_append, List.length_singleton]
      · intro f hf
        have h1 : tabs0.lookup f.1 = none := hfresh f (List.mem_cons_of_mem e hf)
        rw [lookup_append_right _ _ _ h1]
        have hne : (f.1 == e.1) = false := by
          rw [beq_eq_false_iff_ne]
          intro heq
          exact hnotin (by rw [← heq]; exact List.mem_map_of_mem Prod.fst hf)
        simp [List.lookup, hne]
      · exact hnd2

/-- Shared bound: in a distinct-name configuration every id resolvable
through the constructed table lies in [1, N]. -/
theorem browserNew_lookup_bounds (urls : List (String × Page))
    (hnodup : (urls.map Prod.fst).Nodup) (name : String) (v : Nat)
    (h : (browserNew urls).2.lookup name = some v) : 1 ≤ v ∧ v ≤ urls.length := by
  unfold browserNew at h
  rw [browserNew_loop urls [] [] (fun e _ => rfl) hnodup] at h
  simp only [List.nil_append, List.length_nil] at h
  have := idTableFrom_lookup_bounds (urls.map Prod.fst) 0 name v h
  simpa using this

/-- C10: for a configuration whose url names are pairwise distinct,
`Browser::new` builds the name-to-id table mapping the i-th configured name
to tab id i (1-based) with exactly N stored pages, so every id resolvable by
`goto_by_name` lies in [1, N]; the distinctness is the precondition making
this mapping (and with it the current-tab bounds) hold. -/
theorem browser_new_builds_identity_table (urls : List (String × Page))
    (hnodup : (urls.map Prod.fst).Nodup) :
    (browserNew urls).1 = urls.map Prod.snd ∧
    (browserNew urls).2.length = urls.length ∧
    (∀ i, i < urls.length →
      (browserNew urls).2.lookup ((urls.map Prod.fst).getD i ("")) = some (i + 1)) ∧
    (∀ name v, (browserNew urls).2.lookup name = some v → 1 ≤ v ∧ v ≤ urls.length) := by
  have hmain : browserNew urls =
      ([] ++ urls.map Prod.snd, [] ++ idTableFrom 0 (urls.map Prod.fst)) := by
    unfold browserNew
    have := browserNew_loop urls [] [] (fun e _ => rfl) hnodup
    simpa using this
  refine ⟨?_, ?_, ?_, fun name v hv => browserNew_lookup_bounds urls hnodup name v hv⟩
  · rw [hmain]
    simp
  · rw [hmain]
    simp [idTableFrom_length]
  · intro i hi
    rw [hmain]
    simp only [List.nil_append]
    have := idTableFrom_lookup_get (urls.map Prod.fst) 0 i hnodup
      (by simpa using hi)
    rw [this]
    congr 1
    omega

theorem browser_new_builds_identity_table_witness :
    (browserNew [(("a"), Page.mk ("ua") none), (("b"), Page.mk ("ub") none)]).2.lookup ("b")
      = some 2 := by
  have h := browser_new_builds_identity_table
    [(("a"), Page.mk ("ua") none), (("b"), Page.mk ("ub") none)] (by decide)
  have h2 := h.2.2.1 1 (by norm_num)
  exact h2

/-- The tab and flag part of `BrowserState` (`src/output.rs`, lines 48-55). -/
structure BState where
  tab : Nat
  held : Bool
  paused : Bool
deriving DecidableEq

/-- `BrowserState::default` (`src/output.rs`, lines 408-418). -/
def initState : BState := { tab := FIRST_TAB, held := false, paused := false }

/-- `Browser::unpause` (`src/output.rs`, lines 270-279): clears both flags. -/
def unpauseB (s : BState) : BState := { s with held := false, paused := false }

/-- `Browser::hold` (`src/output.rs`, lines 249-256): sets `held` only when
neither paused nor already held. -/
def holdB (s : BState) : BState :=
  if s.paused = false ∧ s.held = false then { s with held := true } else s

/-- `Browser::pause` (`src/output.rs`, lines 258-268): when not yet paused,
clears `held` and sets `paused`. -/
def pauseB (s : BState) : BState :=
  if s.paused = false then { s with held := false, paused := true } else s

/-- `Browser::change_tab` as a state transformer: `none` models the `panic!`
branch; otherwise the updated state and the function's return value (whether
the tab changed). -/
def changeTabB (last : Nat) (s : BState) (tab : Nat) : Option (BState × Bool) :=
  match changeTabKeys last s.tab tab with
  | none => none
  | some _ => some ({ s with tab := tab }, decide (s.tab ≠ tab))

/-- The public operations of the controller: relative navigation, navigation
by configured name, the autoscroll advance, reload, a user key press and
pause. -/
inductive Op where
  | gotoNext : Op
  | gotoPrevious : Op
  | gotoByName : String → Op
  | autoAdvance : Op
  | reloadTab : Op
  | userPress : Op
  | pause : Op

/-- Effect of one public operation on the tab/flag state, following the exact
call order in `src/output.rs` (`goto_next_tab`, `goto_previous_tab`,
`goto_by_name`, the `autoscroll` advance, `reload_tab`, `user_press`,
`pause`); `none` models the `change_tab` panic.  `goto_by_name` runs
`unpause`/`hold` only when `change_tab` reports an actual change; the
autoscroll advance unpauses but does not hold. -/
def stepB (last : Nat) (tabs : List (String × Nat)) (s : BState) : Op → Option BState
  | .gotoNext =>
      match changeTabB last (holdB (unpauseB s)) (nextTabId last s.tab) with
      | none => none
      | some p => some p.1
  | .gotoPrevious =>
      match changeTabB last (holdB (unpauseB s)) (previousTabId last s.tab) with
      | none => none
      | some p => some p.1
  | .gotoByName name =>
      match tabs.lookup name with
      | none => some s
      | some t =>
          match changeTabB last s t with
          | none => none
          | some p => some (if p.2 then holdB (unpauseB p.1) else p.1)
  | .autoAdvance =>
      match changeTabB last (unpauseB s) (nextTabId last s.tab) with
      | none => none
      | some p => some p.1
  | .reloadTab => some s
  | .userPress => some (holdB s)
  | .pause => some (pauseB s)

/-- Run a list of operations from a state; `none` when any of them panics. -/
def runOps (last : Nat) (tabs : List (String × Nat)) : BState → List Op → Option BState
  | s, [] => some s
  | s, op :: ops =>
      match stepB last tabs s op with
      | none => none
      | some s1 => runOps last tabs s1 ops

theorem nextTabId_range (last tab : Nat) (h1 : 1 ≤ tab) (h2 : tab ≤ last) :
    1 ≤ nextTabId last tab ∧ nextTabId last tab ≤ last := by
  simp only [nextTabId, FIRST_TAB]
  split <;> omega

theorem previousTabId_range (last tab : Nat) (hN : 1 ≤ last) (h1 : 1 ≤ tab)
    (h2 : tab ≤ last) :
    1 ≤ previousTabId last tab ∧ previousTabId last tab ≤ last := by
  simp only [previousTabId, FIRST_TAB]
  split <;> omega

theorem changeTabB_some (last : Nat) (s : BState) (t : Nat) (p : BState × Bool)
    (h : changeTabB last s t = some p) :
    p.1.tab = t ∧ p.1.held = s.held ∧ p.1.paused = s.paused := by
  unfold changeTabB at h
  cases hck : changeTabKeys last s.tab t with
  | none => rw [hck] at h; exact Option.noConfusion h
  | some r =>
      rw [hck] at h
      injection h with h
      subst h
      exact ⟨rfl, rfl, rfl⟩

theorem holdB_tab (s : BState) : (holdB s).tab = s.tab := by
  unfold holdB; split <;> rfl

theorem pauseB_tab (s : BState) : (pauseB s).tab = s.tab := by
  unfold pauseB; split <;> rfl

theorem holdB_unpauseB (s : BState) :
    holdB (unpauseB s) = { s with held := true, paused := false } := rfl

theorem stepB_tab_range (last : Nat) (tabs : List (String × Nat))
    (htabs : ∀ name v, tabs.lookup name = some v → 1 ≤ v ∧ v ≤ last)
    (hN : 1 ≤ last) (s : BState) (op : Op) (s' : BState)
    (hs1 : 1 ≤ s.tab) (hs2 : s.tab ≤ last)
    (h : stepB last tabs s op = some s') : 1 ≤ s'.tab ∧ s'.tab ≤ last := by
  cases op with
  | gotoNext =>
      simp only [stepB] at h
      cases hc : changeTabB last (holdB (unpauseB s)) (nextTabId last s.tab) with
      | none => rw [hc] at h; exact Option.noConfusion h
      | some p =>
          rw [hc] at h
          injection h with h
          subst h
          rw [(changeTabB_some _ _ _ _ hc).1]
          exact nextTabId_range last s.tab hs1 hs2
  | gotoPrevious =>
      simp only [stepB] at h
      cases hc : changeTabB last (holdB (unpauseB s)) (previousTabId last s.tab) with
      | none => rw [hc] at h; exact Option.noConfusion h
      | some p =>
          rw [hc] at h
          injection h with h
          subst h
          rw [(changeTabB_some _ _ _ _ hc).1]
          exact previousTabId_range last s.tab hN hs1 hs2
  | gotoByName name =>
      simp only [stepB] at h
      cases hl : tabs.lookup name with
      | none =>
          rw [hl] at h
          injection h with h
          subst h
          exact ⟨hs1, hs2⟩
      | some t =>
          rw [hl] at h
          dsimp only at h
          cases hc : changeTabB last s t with
          | none => rw [hc] at h; exact Option.noConfusion h
          | some p =>
              rw [hc] at h
              injection h with h
              subst h
              have hb := htabs name t hl
              have hp := (changeTabB_some _ _ _ _ hc).1
              cases hq : p.2 with
              | true =>
                  rw [if_pos rfl]
                  rw [holdB_tab]
                  show 1 ≤ (unpauseB p.1).tab ∧ (unpauseB p.1).tab ≤ last
                  simp only [unpauseB]
                  rw [hp]
                  exact hb
              | false =>
                  rw [if_neg (by simp)]
                  rw [hp]
                  exact hb
  | autoAdvance =>
      simp only [stepB] at h
      cases hc : changeTabB last (unpauseB s) (nextTabId last s.tab) with
      | none => rw [hc] at h; exact Option.noConfusion h
      | some p =>
          rw [hc] at h
          injection h with h
          subst h
          rw [(changeTabB_some _ _ _ _ hc).1]
          exact nextTabId_range last s.tab hs1 hs2
  | reloadTab =>
      simp only [stepB] at h
      injection h with h
      subst h
      exact ⟨hs1, hs2⟩
  | userPress =>
      simp only [stepB] at h
      injection h with h
      subst h
      rw [holdB_tab]
      exact ⟨hs1, hs2⟩
  | pause =>
      simp only [stepB] at h
      injection h with h
      subst h
      rw [pauseB_tab]
      exact ⟨hs1, hs2⟩

theorem runOps_tab_range (last : Nat) (tabs : List (String × Nat))
    (htabs : ∀ name v, tabs.lookup name = some v → 1 ≤ v ∧ v ≤ last) (hN : 1 ≤ last) :
    ∀ (ops : List Op) (s s' : BState), 1 ≤ s.tab → s.tab ≤ last →
      runOps last tabs s ops = some s' → 1 ≤ s'.tab ∧ s'.tab ≤ last := by
  intro ops
  induction ops with
  | nil =>
      intro s s' h1 h2 h
      simp only [runOps] at h
      injection h with h
      subst h
      exact ⟨h1, h2⟩
  | cons op ops ih =>
      intro s s' h1 h2 h
      simp only [runOps] at h
      cases hs : stepB last tabs s op with
      | none => rw [hs] at h; exact Option.noConfusion h
      | some s1 =>
          rw [hs] at h
          dsimp only at h
          have hb := stepB_tab_range last tabs htabs hN s op s1 h1 h2 hs
          exact ih s1 s' hb.1 hb.2 h

/-- C6: from the initial state (current_tab = 1), every state reachable by
any sequence of the public operations — relative navigation, navigation by a
name resolved through the table `Browser::new` builds, the autoscroll
advance, reload, key press and pause — satisfies 1 ≤ current_tab ≤ N, where
N is the number of configured tabs (url names pairwise distinct and N ≥ 1,
per the data model). -/
theorem current_tab_always_in_range (urls : List (String × Page))
    (hnodup : (urls.map Prod.fst).Nodup) (hN : 1 ≤ urls.length)
    (ops : List Op) (s : BState)
    (h : runOps urls.length (browserNew urls).2 initState ops = some s) :
    1 ≤ s.tab ∧ s.tab ≤ urls.length :=
  runOps_tab_range urls.length (browserNew urls).2
    (fun name v hv => browserNew_lookup_bounds urls hnodup name v hv) hN ops initState s
    (le_refl 1) hN h

theorem current_tab_always_in_range_witness :
    1 ≤ (⟨2, true, false⟩ : BState).tab ∧ (⟨2, true, false⟩ : BState).tab ≤ 2 :=
  current_tab_always_in_range [(("a"), Page.mk ("ua") none), (("b"), Page.mk ("ub") none)]
    (by decide) (by norm_num) [Op.gotoNext] ⟨2, true, false⟩ (by decide)

theorem stepB_flags (last : Nat) (tabs : List (String × Nat)) (s : BState) (op : Op)
    (s' : BState) (hs : ¬(s.paused = true ∧ s.held = true))
    (h : stepB last tabs s op = some s') : ¬(s'.paused = true ∧ s'.held = true) := by
  cases op with
  | gotoNext =>
      simp only [stepB] at h
      cases hc : changeTabB last (holdB (unpauseB s)) (nextTabId last s.tab) with
      | none => rw [hc] at h; exact Option.noConfusion h
      | some p =>
          rw [hc] at h
          injection h with h
          subst h
          have h2 := (changeTabB_some _ _ _ _ hc).2.2
          rw [holdB_unpauseB] at h2
          simp at h2
          simp [h2]
  | gotoPrevious =>
      simp only [stepB] at h
      cases hc : changeTabB last (holdB (unpauseB s)) (previousTabId last s.tab) with
      | none => rw [hc] at h; exact Option.noConfusion h
      | some p =>
          rw [hc] at h
          injection h with h
          subst h
          have h2 := (changeTabB_some _ _ _ _ hc).2.2
          rw [holdB_unpauseB] at h2
          simp at h2
          simp [h2]
  | gotoByName name =>
      simp only [stepB] at h
      cases hl : tabs.lookup name with
      | none =>
          rw [hl] at h
          injection h with h
          subst h
          exact hs
      | some t =>
          rw [hl] at h
          dsimp only at h
          cases hc : changeTabB last s t with
          | none => rw [hc] at h; exact Option.noConfusion h
          | some p =>
              rw [hc] at h
              injection h with h
              subst h
              have h2 := (changeTabB_some _ _ _ _ hc).2.1
              have h3 := (changeTabB_some _ _ _ _ hc).2.2
              cases hq : p.2 with
              | true =>
                  rw [if_pos rfl]
                  rw [holdB_unpauseB]
                  simp
              | false =>
                  rw [if_neg (by simp)]
                  rw [h3, h2]
                  exact hs
  | autoAdvance =>
      simp only [stepB] at h
      cases hc : changeTabB last (unpauseB s) (nextTabId last s.tab) with
      | none => rw [hc] at h; exact Option.noConfusion h
      | some p =>
          rw [hc] at h
          injection h with h
          subst h
          have h2 := (changeTabB_some _ _ _ _ hc).2.2
          simp only [unpauseB] at h2
          simp [h2]
  | reloadTab =>
      simp only [stepB] at h
      injection h with h
      subst h
      exact hs
  | userPress =>
      simp only [stepB] at h
      injection h with h
      subst h
      by_cases hcond : s.paused = false ∧ s.held = false
      · rw [holdB, if_pos hcond]
        simp [hcond.1]
      · rw [holdB, if_neg hcond]
        exact hs
  | pause =>
      simp only [stepB] at h
      injection h with h
      subst h
      by_cases hcond : s.paused = false
      · rw [pauseB, if_pos hcond]
        simp
      · rw [pauseB, if_neg hcond]
        exact hs

theorem runOps_flags (last : Nat) (tabs : List (String × Nat)) :
    ∀ (ops : List Op) (s s' : BState), ¬(s.paused = true ∧ s.held = true) →
      runOps last tabs s ops = some s' → ¬(s'.paused = true ∧ s'.held = true) := by
  intro ops
  induction ops with
  | nil =>
      intro s s' hflag h
      simp only [runOps] at h
      injection h with h
      subst h
      exact hflag
  | cons op ops ih =>
      intro s s' hflag h
      simp only [runOps] at h
      cases hs : stepB last tabs s op with
      | none => rw [hs] at h; exact Option.noConfusion h
      | some s1 =>
          rw [hs] at h
          dsimp only at h
          exact ih s1 s' (stepB_flags last tabs s op s1 hflag hs) h

/-- C9: entering pause clears `held` and sets `paused`, and changes nothing
when already paused; the unpause run on deliberate navigation clears both
`held` and `paused`; consequently (the flag invariant holding in every
reachable state, in particular right after any `pause()`) the state is never
both paused and held. -/
theorem pause_clears_held_never_both :
    (∀ s : BState, s.paused = false →
      pauseB s = { s with held := false, paused := true }) ∧
    (∀ s : BState, s.paused = true → pauseB s = s) ∧
    (∀ s : BState, unpauseB s = { s with held := false, paused := false }) ∧
    (∀ (last : Nat) (tabs : List (String × Nat)) (ops : List Op) (s : BState),
      runOps last tabs initState ops = some s →
      ¬(s.paused = true ∧ s.held = true)) := by
  refine ⟨?_, ?_, fun s => rfl, ?_⟩
  · intro s hp
    rw [pauseB, if_pos hp]
  · intro s hp
    rw [pauseB, if_neg (by simp [hp])]
  · intro last tabs ops s h
    exact runOps_flags last tabs ops initState s (by simp [initState]) h

theorem pause_clears_held_never_both_witness :
    pauseB ⟨1, true, false⟩ = ⟨1, false, true⟩ ∧
    ¬((⟨1, false, true⟩ : BState).paused = true ∧
      (⟨1, false, true⟩ : BState).held = true) :=
  ⟨pause_clears_held_never_both.1 ⟨1, true, false⟩ rfl,
   pause_clears_held_never_both.2.2.2 3 [] [Op.pause] ⟨1, false, true⟩ (by decide)⟩
